import Mathlib

/-!
Verification of the workflow-parameter injection core of the
`modal-comfyui-runner` repository.

The embedding below translates, from the source:
  * `deploy_utils._url_to_filename`      (deploy_utils.py, lines 83-90)
  * `deploy_utils.download_file`         (deploy_utils.py, lines 92-146)
  * `deploy_utils.inject_args_into_workflow` (deploy_utils.py, lines 148-244)
  * the workflow / mapping-spec paths used by `ComfyUI.api` (modal_comfy.py)

Python dictionaries are modelled as association lists with first-occurrence
lookup and in-place-or-append assignment, matching insertion-order semantics.
Values follow the data model of the mapping documents: scalars (null, bool,
int, string) and flat lists of scalars.  A graph document is a dictionary
from node id to a node, a node is a dictionary from field-group name to a
field group, and a field group is a dictionary from field name to value.
(The node-kind tag of a node record is omitted: the injection engine never
reads or writes it.)  Side effects (the filesystem, HTTP) are passed as
explicit state: the set of existing files is a list of paths, and an HTTP
client is a function from URL to the final response status code.
-/

set_option maxHeartbeats 1000000
set_option maxRecDepth 8192
set_option autoImplicit false

/-- A YAML/JSON scalar as it appears in workflow graphs, argument sets and
mapping specifications. Numbers are modelled as integers. -/
inductive Scalar where
  | null : Scalar
  | bool : Bool → Scalar
  | num : Int → Scalar
  | str : String → Scalar
deriving DecidableEq, Repr

/-- A value: a scalar or a flat list of scalars (the data model of the
spec: scalars, strings, or sequences of scalars). -/
inductive JVal where
  | scalar : Scalar → JVal
  | arr : List Scalar → JVal
deriving DecidableEq, Repr

/-- Shorthand for a string scalar value. -/
def jstr (s : String) : JVal := .scalar (.str s)

/-- Is the value a list? (Python `isinstance(v, list)`.) -/
def JVal.isArr : JVal → Bool
  | .scalar _ => false
  | .arr _ => true

/-- Python dictionary lookup `d[k]` / `d.get(k)`: first occurrence of the key. -/
def alookup {κ α : Type} [DecidableEq κ] : List (κ × α) → κ → Option α
  | [], _ => none
  | (k', v) :: d, k => if k = k' then some v else alookup d k

/-- Python dictionary assignment `d[k] = v`: replace the first binding of `k`
in place, or append a new binding at the end (insertion order). -/
def setKey {κ α : Type} [DecidableEq κ] : List (κ × α) → κ → α → List (κ × α)
  | [], k, v => [(k, v)]
  | (k', v') :: d, k, v => if k = k' then (k, v) :: d else (k', v') :: setKey d k v

/-- A field group: field name → value. -/
abbrev FieldGroup := List (String × JVal)

/-- A node: field-group name → field group. -/
abbrev Node := List (String × FieldGroup)

/-- A graph document: node id → node. -/
abbrev Workflow := List (String × Node)

/-- An argument set: parameter name → value. -/
abbrev Args := List (String × JVal)

/-- The field-path read `wf[n][f][s]`, as an observation. -/
def getPath (wf : Workflow) (n f s : String) : Option JVal :=
  match alookup wf n with
  | none => none
  | some node =>
    match alookup node f with
    | none => none
    | some fg => alookup fg s

/-! ## Asset resolver: `_url_to_filename` and `download_file` -/

/-- Python `s.split(c)` for a one-character separator. -/
def splitOnChar (c : Char) : List Char → List (List Char)
  | [] => [[]]
  | x :: xs =>
    match splitOnChar c xs with
    | [] => [[]]
    | h :: t => if x = c then [] :: h :: t else (x :: h) :: t

/-- Python `s.rfind(c)` restricted to a found index: the last index at which
the character occurs, if any. -/
def lastIdxOf : List Char → Char → Option Nat
  | [], _ => none
  | x :: xs, c =>
    match lastIdxOf xs c with
    | some i => some (i + 1)
    | none => if x = c then some 0 else none

/-- `os.path.splitext` (posix): split at the last dot, provided it comes after
the last path separator and some character of the basename before it is not a
dot; otherwise the extension is empty. -/
def splitextL (p : List Char) : List Char × List Char :=
  match lastIdxOf p '.' with
  | none => (p, [])
  | some di =>
    let sep? := lastIdxOf p '/'
    let ok := match sep? with
      | none => true
      | some si => si < di
    if ok then
      let fi := match sep? with
        | none => 0
        | some si => si + 1
      if ((p.take di).drop fi).any (fun ch => ch ≠ '.') then (p.take di, p.drop di)
      else (p, [])
    else (p, [])

/-- Python slicing `s[:k]` for a possibly negative bound `k`. -/
def pySliceL (xs : List Char) (k : Int) : List Char :=
  if 0 ≤ k then xs.take k.toNat else xs.take (xs.length - (-k).toNat)

/-- `_url_to_filename` (deploy_utils.py, lines 83-90), on character lists:
take the last slash-separated segment of the URL, drop everything from the
first question mark (the effect of the substitution of the anchored
question-mark-dot-star pattern by the empty string), and if the result is
longer than 255 characters truncate the stem while keeping the extension. -/
def urlToFilenameL (url : List Char) : List Char :=
  let filename := (splitOnChar '/' url).getLastD []
  let filename := filename.takeWhile (fun ch => ch ≠ '?')
  let max_length : Nat := 255
  if max_length < filename.length then
    let ne := splitextL filename
    pySliceL ne.1 ((max_length : Int) - (ne.2.length : Int)) ++ ne.2
  else filename

/-- `_url_to_filename` on strings. -/
def url_to_filename (url : String) : String := ⟨urlToFilenameL url.toList⟩

/-- The raw (pre-truncation) filename that `_url_to_filename` derives. -/
def rawSegment (url : String) : List Char :=
  ((splitOnChar '/' url.toList).getLastD []).takeWhile (fun ch => ch ≠ '?')

/-- Stated from the spec, not from the source (refinement target for C9):
the target filename is derived from the path component of the reference — the part
of the URL before any query string — taking its final slash-separated
segment. -/
def spec_target_filename (url : String) : String :=
  ⟨(splitOnChar '/' (url.toList.takeWhile (fun ch => ch ≠ '?'))).getLastD []⟩

/-- Result of `download_file`: the returned path, tagged by whether the file
already existed (no fetch performed) or was fetched from the network. -/
inductive DlResult where
  | cached : String → DlResult
  | fetched : String → DlResult
deriving DecidableEq, Repr

/-- The path carried by a `DlResult`. -/
def DlResult.path : DlResult → String
  | .cached p => p
  | .fetched p => p

/-- Failures of `download_file`: `FileNotFoundError` on a 404, a generic
`Exception` with the offending status code otherwise. -/
inductive DlErr where
  | notFound : String → DlErr
  | fetchError : String → Nat → DlErr
deriving DecidableEq, Repr

/-- Stated from the spec, not from the source (refinement target for C8):
an HTTP status code is a success when it is in the 2xx class. -/
def http_success (c : Nat) : Bool := 200 ≤ c && c < 300

/-- `download_file` (deploy_utils.py, lines 92-146).  The filesystem is the
list of existing file paths, threaded explicitly; `http` gives the final
response status for a URL (redirects already followed, matching
`follow_redirects=True`).  If the target exists and `overwrite` is not set,
the path is returned without any fetch; otherwise the status decides:
404 raises `FileNotFoundError`, any other status different from 200 raises a
generic `Exception`, and 200 writes the file (the path joins the filesystem)
and returns the path.  The streaming-versus-buffered write distinction is not
modelled: both produce the file at the target path. -/
def download_file (url local_filepath : String) (overwrite : Bool)
    (fs : List String) (http : String → Nat) :
    Except DlErr (DlResult × List String) :=
  if local_filepath ∈ fs ∧ overwrite = false then
    .ok (.cached local_filepath, fs)
  else
    if http url = 404 then .error (.notFound url)
    else if http url ≠ 200 then .error (.fetchError url (http url))
    else .ok (.fetched local_filepath, local_filepath :: fs)

/-! ## Graph injection engine: `inject_args_into_workflow` -/

/-- Python `str()` on a scalar (used as `str(node_id)`). -/
def scalarStr : Scalar → String
  | .null => "None"
  | .bool b => if b then "True" else "False"
  | .num n => toString n
  | .str s => s

/-- Python str() applied to the result of reading node_id with .get:
str(None) is the (truthy) string "None". -/
def pyStr : Option Scalar → String
  | none => "None"
  | some sc => scalarStr sc

/-- One remap rule of a parameter rule: the result of reading `node_id`,
`field`, `subfield` and `map` from the remap dictionary with `.get`
(absent keys give `none`; an absent `map` gives the empty table). -/
structure RemapConfig where
  node_id : Option Scalar
  field : Option String
  subfield : Option String
  map : List (Scalar × JVal)
deriving DecidableEq, Repr

/-- The `comfyui` section of a parameter rule, fields read with `.get`. -/
structure ComfyConfig where
  node_id : Option Scalar
  field : Option String
  subfield : Option String
  preprocessing : Option String
  remap : List RemapConfig
deriving DecidableEq, Repr

/-- A parameter rule of the mapping specification: `none` models an absent or
empty (falsy) `comfyui` section. -/
structure ParamConfig where
  comfyui : Option ComfyConfig
deriving DecidableEq, Repr

/-- Failures of the injection pass.  `keyError` is the `KeyError` raised by
the subscript of a missing key; `typeError` covers using a non-list value
where a list of URL strings is iterated, and hashing a list value in a
dictionary membership test; `dl` propagates a download failure. -/
inductive InjErr where
  | keyError : String → InjErr
  | typeError : InjErr
  | dl : DlErr → InjErr
deriving DecidableEq, Repr

/-- The write `updated_workflow[n][f][s] = v` preceded by the guard that
assigns an empty dictionary to `updated_workflow[n][f]` when the key `f` is
absent (deploy_utils.py, lines 207-219 and 234-240).  Callers only invoke it with
the node present; the absent-node branch returns the workflow unchanged. -/
def writeField (wf : Workflow) (n f s : String) (v : JVal) : Workflow :=
  match alookup wf n with
  | none => wf
  | some node =>
    let node := if (alookup node f).isSome then node else setKey node f []
    let fg := (alookup node f).getD []
    setKey wf n (setKey node f (setKey fg s v))

/-- One iteration of the remap loop (deploy_utils.py, lines 222-240): read
`node_id` (through `str`), `field` (default "inputs"), `subfield`, `map`;
the guard `if remap_node_id and remap_subfield and param_value in remap_map`
short-circuits left to right, so the membership test — which raises on an
unhashable list value — only runs when both name parts are truthy; a missing
remap node degrades to a warning. -/
def applyRemap (pv : JVal) (wf : Workflow) (rc : RemapConfig) : Except InjErr Workflow :=
  let remap_node_id := pyStr rc.node_id
  let remap_field := rc.field.getD "inputs"
  if remap_node_id = "" then .ok wf
  else
    match rc.subfield with
    | none => .ok wf
    | some remap_subfield =>
      if remap_subfield = "" then .ok wf
      else
        match pv with
        | .arr _ => .error .typeError
        | .scalar s =>
          match alookup rc.map s with
          | none => .ok wf
          | some mapped_value =>
            match alookup wf remap_node_id with
            | none => .ok wf
            | some _ => .ok (writeField wf remap_node_id remap_field remap_subfield mapped_value)

/-- The remap loop `for remap_config in remap_configs`. -/
def remapFold (pv : JVal) : Workflow → List RemapConfig → Except InjErr Workflow
  | wf, [] => .ok wf
  | wf, rc :: rest =>
    match applyRemap pv wf rc with
    | .error e => .error e
    | .ok wf' => remapFold pv wf' rest

/-- One iteration of the parameter loop (deploy_utils.py, lines 176-242):
unknown parameter, missing `comfyui` section, missing `node_id`/`subfield`,
and a target node absent from the graph all degrade to warnings that leave
the graph unchanged; otherwise the (identity) folder preprocessing is
applied, the primary field write happens, and the remap loop runs. -/
def processParam (ps : List (String × ParamConfig)) (wf : Workflow)
    (param_name : String) (param_value : JVal) : Except InjErr Workflow :=
  match alookup ps param_name with
  | none => .ok wf
  | some param_config =>
    match param_config.comfyui with
    | none => .ok wf
    | some c =>
      match c.node_id, c.subfield with
      | some nid, some subfield =>
        let node_id_str := scalarStr nid
        let field := c.field.getD "inputs"
        match alookup wf node_id_str with
        | none => .ok wf
        | some _ =>
          let processed_value :=
            if c.preprocessing = some "folder" ∧ param_value.isArr = true
            then param_value else param_value
          remapFold param_value (writeField wf node_id_str field subfield processed_value) c.remap
      | _, _ => .ok wf

/-- The loop `for param_name, param_value in args.items()`. -/
def passM (ps : List (String × ParamConfig)) : Workflow → List (String × JVal) → Except InjErr Workflow
  | wf, [] => .ok wf
  | wf, (p, v) :: rest =>
    match processParam ps wf p v with
    | .error e => .error e
    | .ok wf' => passM ps wf' rest

/-- The loop `for url in args["images"]` (deploy_utils.py, lines 157-160):
download each URL to `/root/input/<filename>` and collect the local paths in
order, threading the filesystem.  A non-string element cannot be used as a
URL; iterating a non-list value is likewise modelled as a `typeError`. -/
def resolveImages (http : String → Nat) : List Scalar → List String → Except InjErr (List String × List String)
  | [], fs => .ok ([], fs)
  | u :: rest, fs =>
    match u with
    | .str url =>
      match download_file url ("/root/input/" ++ url_to_filename url) false fs http with
      | .error e => .error (.dl e)
      | .ok (res, fs') =>
        match resolveImages http rest fs' with
        | .error e => .error e
        | .ok (paths, fs'') => .ok (res.path :: paths, fs'')
    | _ => .error .typeError

/-- The asset-resolution prologue of the injection function: the subscript
`args["images"]` raises `KeyError` when the key is absent; on success the
caller-owned argument set has its `images` entry replaced in place by the
list of resolved local paths (`args["images"] = local_filepaths`). -/
def imageStep (args : Args) (fs : List String) (http : String → Nat) :
    Except InjErr (Args × List String) :=
  match alookup args "images" with
  | none => .error (.keyError "images")
  | some (.scalar _) => .error .typeError
  | some (.arr urls) =>
    match resolveImages http urls fs with
    | .error e => .error e
    | .ok (paths, fs') => .ok (setKey args "images" (.arr (paths.map Scalar.str)), fs')

/-- `copy.deepcopy(workflow)`: a structurally equal, independent document.
Under value semantics this is the identity; all subsequent writes target the
copy, so the original value flows through the call untouched. -/
def deepcopy (wf : Workflow) : Workflow := wf

/-- The observable outcome of `inject_args_into_workflow`: the graph
binding of the caller after the call (`original`), the returned graph
(`updated`), the argument-set binding of the caller after the call
(`args` — mutated in place by the images substitution), and the
filesystem after downloads. -/
structure InjectResult where
  original : Workflow
  updated : Workflow
  args : Args
  fs : List String
deriving DecidableEq, Repr

/-- `inject_args_into_workflow` (deploy_utils.py, lines 148-244).  The
`parameters` argument is the parsed `parameters` section of api.yaml
(reading the parameters key of api_config with a .get default); parsing
the YAML file itself is
upstream of this function and not modelled. -/
def inject_args_into_workflow (workflow : Workflow) (args : Args)
    (parameters : List (String × ParamConfig)) (fs : List String) (http : String → Nat) :
    Except InjErr InjectResult :=
  match imageStep args fs http with
  | .error e => .error e
  | .ok (args', fs') =>
    let updated_workflow := deepcopy workflow
    match passM parameters updated_workflow args' with
    | .error e => .error e
    | .ok updated => .ok ⟨workflow, updated, args', fs'⟩

/-! ## Specification paths used by the HTTP endpoint (`modal_comfy.py`) -/

/-- The hard-coded mapping-specification location
(deploy_utils.py, lines 153-154: "TODO: make this dynamic"). -/
def api_yaml_path : String := "/root/workspace/workflows/txt2img/api.yaml"

/-- The mapping-specification file consulted while serving a request for a
given workflow name: `inject_args_into_workflow` always opens
`api_yaml_path`, whatever workflow the request named. -/
def mapping_spec_path : String → String := fun _ => api_yaml_path

/-- The graph document loaded for a request (`modal_comfy.py`, ComfyUI.api):
this one is selected by the workflow name from the request. -/
def workflow_graph_path (workflow_name : String) : String :=
  "/root/workspace/workflows/" ++ workflow_name ++ "/workflow_api.json"

/-! ## Write-list view of the injection pass (for the idempotence proof) -/

/-- A single field write `wf[n][f][s] = v`. -/
structure Write where
  n : String
  f : String
  s : String
  v : JVal
deriving DecidableEq, Repr

/-- Apply one write. -/
def applyW (wf : Workflow) (w : Write) : Workflow := writeField wf w.n w.f w.s w.v

/-- The node-level part of a field write: set field `s` of group `f`,
creating the group if absent. -/
def nodeWrite (node : Node) (f s : String) (v : JVal) : Node :=
  setKey node f (setKey ((alookup node f).getD []) s v)

/-- Apply a list of writes left to right. -/
def applyWrites : Workflow → List Write → Workflow
  | wf, [] => wf
  | wf, w :: L => applyWrites (applyW wf w) L

/-- The node ids of a graph document. -/
def keysL (wf : Workflow) : List String := wf.map Prod.fst

/-- The writes one remap rule performs, given the (invariant) node-id set. -/
def compileRemap (ks : List String) (pv : JVal) (rc : RemapConfig) : Except InjErr (List Write) :=
  let remap_node_id := pyStr rc.node_id
  let remap_field := rc.field.getD "inputs"
  if remap_node_id = "" then .ok []
  else
    match rc.subfield with
    | none => .ok []
    | some remap_subfield =>
      if remap_subfield = "" then .ok []
      else
        match pv with
        | .arr _ => .error .typeError
        | .scalar s =>
          match alookup rc.map s with
          | none => .ok []
          | some mapped_value =>
            if remap_node_id ∈ ks then
              .ok [⟨remap_node_id, remap_field, remap_subfield, mapped_value⟩]
            else .ok []

/-- The writes of a remap list. -/
def compileRemaps (ks : List String) (pv : JVal) : List RemapConfig → Except InjErr (List Write)
  | [] => .ok []
  | rc :: rest =>
    match compileRemap ks pv rc with
    | .error e => .error e
    | .ok ws =>
      match compileRemaps ks pv rest with
      | .error e => .error e
      | .ok ws' => .ok (ws ++ ws')

/-- The writes one parameter performs. -/
def compileParam (ks : List String) (ps : List (String × ParamConfig))
    (param_name : String) (param_value : JVal) : Except InjErr (List Write) :=
  match alookup ps param_name with
  | none => .ok []
  | some param_config =>
    match param_config.comfyui with
    | none => .ok []
    | some c =>
      match c.node_id, c.subfield with
      | some nid, some subfield =>
        let node_id_str := scalarStr nid
        let field := c.field.getD "inputs"
        if node_id_str ∈ ks then
          let processed_value :=
            if c.preprocessing = some "folder" ∧ param_value.isArr = true
            then param_value else param_value
          match compileRemaps ks param_value c.remap with
          | .error e => .error e
          | .ok ws => .ok (⟨node_id_str, field, subfield, processed_value⟩ :: ws)
        else .ok []
      | _, _ => .ok []

/-- The writes of a whole argument set. -/
def compileArgs (ks : List String) (ps : List (String × ParamConfig)) :
    List (String × JVal) → Except InjErr (List Write)
  | [] => .ok []
  | (p, v) :: rest =>
    match compileParam ks ps p v with
    | .error e => .error e
    | .ok ws =>
      match compileArgs ks ps rest with
      | .error e => .error e
      | .ok ws' => .ok (ws ++ ws')

/-! ## Concrete scenario data -/

/-- Scenario A graph: node "6" with an empty inputs group. -/
def wfA : Workflow := [("6", [("inputs", [])])]

/-- Scenario A mapping specification: parameter "prompt" routed to node 6
(an integer in the YAML), subfield "text", no field override, no remaps. -/
def psA : List (String × ParamConfig) :=
  [("prompt", ⟨some ⟨some (.num 6), none, some "text", none, []⟩⟩)]

/-- Scenario A argument set exactly as the spec gives it. -/
def argsA : Args := [("prompt", jstr "a cat")]

/-- Scenario A argument set extended with an (empty) asset list. -/
def argsA' : Args := [("prompt", jstr "a cat"), ("images", .arr [])]

/-- An argument set whose asset list holds two URLs. -/
def argsC : Args :=
  [("images", .arr [.str "http://h/a.png", .str "http://h/b.png"]), ("prompt", jstr "x")]

/-- Scenario B remap rule: node "9", subfield "ckpt_name", one table entry. -/
def rcB : RemapConfig :=
  ⟨some (.str "9"), none, some "ckpt_name", [(.str "anime", jstr "anime.safetensors")]⟩

/-- Scenario B parameter rule: parameter "style" to node 4 with the remap. -/
def cB : ComfyConfig := ⟨some (.num 4), none, some "style_name", none, [rcB]⟩

/-- Scenario B mapping specification. -/
def psB : List (String × ParamConfig) := [("style", ⟨some cB⟩)]

/-- Scenario B graph: nodes "4" and "9" with empty inputs groups. -/
def wfB : Workflow := [("4", [("inputs", [])]), ("9", [("inputs", [])])]

/-- Scenario B argument set (with an empty asset list so the call succeeds). -/
def argsB : Args := [("style", jstr "anime"), ("images", .arr [])]

/-- An HTTP client that always reports 200. -/
def http200 : String → Nat := fun _ => 200

/-- An HTTP client that always reports 201 (a success-class status). -/
def http201 : String → Nat := fun _ => 201

/-- A URL whose derived filename has a 256-character extension. -/
def longUrl : String := "h/a." ++ ⟨List.replicate 255 'x'⟩

/-! ## Theorems -/

section DictLemmas

variable {κ α : Type} [DecidableEq κ]

@[simp] theorem alookup_nil (k : κ) : alookup ([] : List (κ × α)) k = none := rfl

theorem alookup_cons (k' : κ) (v : α) (d : List (κ × α)) (k : κ) :
    alookup ((k', v) :: d) k = if k = k' then some v else alookup d k := rfl

@[simp] theorem alookup_setKey_self (d : List (κ × α)) (k : κ) (v : α) :
    alookup (setKey d k v) k = some v := by
  induction d with
  | nil => simp [setKey, alookup]
  | cons p d ih =>
    obtain ⟨k', v'⟩ := p
    by_cases h : k = k' <;> simp [setKey, alookup, h, ih]

theorem alookup_setKey_ne (d : List (κ × α)) (k k' : κ) (v : α) (h : k' ≠ k) :
    alookup (setKey d k v) k' = alookup d k' := by
  induction d with
  | nil => simp [setKey, alookup, h]
  | cons p d ih =>
    obtain ⟨k₀, v₀⟩ := p
    by_cases hk : k = k₀
    · subst hk
      simp [setKey, alookup, h]
    · by_cases hk' : k' = k₀ <;> simp [setKey, alookup, hk, hk', ih]

theorem setKey_id (d : List (κ × α)) (k : κ) (v : α) (h : alookup d k = some v) :
    setKey d k v = d := by
  induction d with
  | nil => simp [alookup] at h
  | cons p d ih =>
    obtain ⟨k₀, v₀⟩ := p
    by_cases hk : k = k₀
    · subst hk
      simp [alookup] at h
      simp [setKey, h]
    · simp [alookup, hk] at h
      simp [setKey, hk, ih h]

@[simp] theorem setKey_setKey (d : List (κ × α)) (k : κ) (v v' : α) :
    setKey (setKey d k v) k v' = setKey d k v' := by
  induction d with
  | nil => simp [setKey]
  | cons p d ih =>
    obtain ⟨k₀, v₀⟩ := p
    by_cases hk : k = k₀ <;> simp [setKey, hk, ih]

theorem setKey_comm (d : List (κ × α)) (k k' : κ) (v v' : α) (hne : k ≠ k')
    (hk : (alookup d k).isSome) :
    setKey (setKey d k v) k' v' = setKey (setKey d k' v') k v := by
  induction d with
  | nil => simp [alookup] at hk
  | cons p d ih =>
    obtain ⟨k₀, v₀⟩ := p
    by_cases h1 : k = k₀
    · subst h1
      have h2 : ¬ k' = k := fun h => hne h.symm
      simp [setKey, h2, hne]
    · by_cases h2 : k' = k₀
      · subst h2
        simp [setKey, h1, fun h => hne h]
      · simp [alookup, h1] at hk
        simp [setKey, h1, h2, ih hk]

theorem keys_setKey (d : List (κ × α)) (k : κ) (v : α) (hk : (alookup d k).isSome) :
    (setKey d k v).map Prod.fst = d.map Prod.fst := by
  induction d with
  | nil => simp [alookup] at hk
  | cons p d ih =>
    obtain ⟨k₀, v₀⟩ := p
    by_cases h1 : k = k₀
    · simp [setKey, h1]
    · simp [alookup, h1] at hk
      simp [setKey, h1, ih hk]

theorem alookup_eq_none_iff (d : List (κ × α)) (k : κ) :
    alookup d k = none ↔ k ∉ d.map Prod.fst := by
  induction d with
  | nil => simp
  | cons p d ih =>
    obtain ⟨k₀, v₀⟩ := p
    by_cases h : k = k₀ <;> simp [alookup, h, ih]

theorem alookup_isSome_of_keys_eq {d d' : List (κ × α)} (k : κ)
    (h : d.map Prod.fst = d'.map Prod.fst) (hk : (alookup d k).isSome) :
    (alookup d' k).isSome := by
  rcases h' : alookup d' k with _ | v
  · rw [alookup_eq_none_iff, ← h, ← alookup_eq_none_iff] at h'
    rw [h'] at hk
    simp at hk
  · simp

end DictLemmas

/-! ### Lemmas about the asset resolver -/

theorem download_file_cached (url p : String) (fs : List String) (http : String → Nat)
    (h : p ∈ fs) : download_file url p false fs http = .ok (.cached p, fs) := by
  simp [download_file, h]

theorem download_file_ok_mem (url p : String) (fs fs' : List String) (http : String → Nat)
    (r : DlResult) (h : download_file url p false fs http = .ok (r, fs')) :
    r.path = p ∧ p ∈ fs' ∧ fs ⊆ fs' := by
  unfold download_file at h
  split at h
  · rename_i hc
    simp only [Except.ok.injEq, Prod.mk.injEq] at h
    obtain ⟨h1, h2⟩ := h
    subst h2
    exact ⟨by rw [← h1]; rfl, hc.1, fun _ hx => hx⟩
  · split at h
    · cases h
    · split at h
      · cases h
      · simp only [Except.ok.injEq, Prod.mk.injEq] at h
        obtain ⟨h1, h2⟩ := h
        subst h2
        exact ⟨by rw [← h1]; rfl, List.mem_cons_self _ _, List.subset_cons_self _ _⟩

theorem download_file_ok_of (url p : String) (fs : List String) (http : String → Nat)
    (h : p ∈ fs ∨ http url = 200) :
    ∃ r fs', download_file url p false fs http = .ok (r, fs') := by
  by_cases hm : p ∈ fs
  · exact ⟨_, _, download_file_cached url p fs http hm⟩
  · rcases h with h | h
    · exact absurd h hm
    · refine ⟨.fetched p, p :: fs, ?_⟩
      simp [download_file, hm, h]

theorem resolveImages_ok (http : String → Nat) (urls : List Scalar) (fs : List String)
    (hstr : ∀ u ∈ urls, ∃ s, u = Scalar.str s)
    (hdl : ∀ url, Scalar.str url ∈ urls →
      ("/root/input/" ++ url_to_filename url) ∈ fs ∨ http url = 200) :
    ∃ paths fs', resolveImages http urls fs = .ok (paths, fs') := by
  induction urls generalizing fs with
  | nil => exact ⟨[], fs, rfl⟩
  | cons u rest ih =>
    obtain ⟨s, rfl⟩ := hstr u (List.mem_cons_self _ _)
    obtain ⟨r, fs', hdf⟩ := download_file_ok_of s ("/root/input/" ++ url_to_filename s) fs http
      (hdl s (List.mem_cons_self _ _))
    have hsub := (download_file_ok_mem _ _ _ _ _ _ hdf).2.2
    obtain ⟨paths, fs'', hrec⟩ := ih fs' (fun u hu => hstr u (List.mem_cons_of_mem _ hu))
      (fun url hu => by
        rcases hdl url (List.mem_cons_of_mem _ hu) with h | h
        · exact Or.inl (hsub h)
        · exact Or.inr h)
    refine ⟨r.path :: paths, fs'', ?_⟩
    rw [resolveImages]
    simp only [hdf, hrec]

theorem resolveImages_paths (http : String → Nat) (urls : List Scalar) (fs fs' : List String)
    (paths : List String) (h : resolveImages http urls fs = .ok (paths, fs')) :
    paths.length = urls.length ∧ fs ⊆ fs' ∧
    (∀ p ∈ paths, p ∈ fs') ∧
    (∀ i url, urls.get? i = some (.str url) →
      paths.get? i = some ("/root/input/" ++ url_to_filename url)) := by
  induction urls generalizing fs paths with
  | nil =>
    rw [resolveImages] at h
    simp only [Except.ok.injEq, Prod.mk.injEq] at h
    obtain ⟨h1, h2⟩ := h
    subst h1; subst h2
    exact ⟨rfl, fun _ hx => hx, by simp, by simp⟩
  | cons u rest ih =>
    rcases u with _ | b | n | url
    · simp [resolveImages] at h
    · simp [resolveImages] at h
    · simp [resolveImages] at h
    · rw [resolveImages] at h
      rcases hdf : download_file url ("/root/input/" ++ url_to_filename url) false fs http
        with e | ⟨r, fs₁⟩
      · simp only [hdf] at h
        cases h
      · simp only [hdf] at h
        rcases hrec : resolveImages http rest fs₁ with e | ⟨paths₁, fs₂⟩
        · simp only [hrec] at h
          cases h
        · simp only [hrec] at h
          simp only [Except.ok.injEq, Prod.mk.injEq] at h
          obtain ⟨h1, h2⟩ := h
          subst h1; subst h2
          obtain ⟨hpath, hmem, hsub⟩ := download_file_ok_mem _ _ _ _ _ _ hdf
          obtain ⟨ih1, ih2, ih3, ih4⟩ := ih fs₁ paths₁ hrec
          refine ⟨by simp [ih1], fun x hx => ih2 (hsub hx), ?_, ?_⟩
          · intro p hp
            rcases List.mem_cons.mp hp with rfl | hp
            · rw [hpath]; exact ih2 hmem
            · exact ih3 _ hp
          · intro i u hi
            match i with
            | 0 =>
              simp only [List.get?] at hi ⊢
              cases hi
              rw [hpath]
            | i + 1 =>
              simp only [List.get?] at hi ⊢
              exact ih4 i u hi

/-! ### Lemmas about the injection pass -/

theorem applyRemap_scalar_ok (s : Scalar) (wf : Workflow) (rc : RemapConfig) :
    ∃ w', applyRemap (.scalar s) wf rc = .ok w' := by
  unfold applyRemap
  dsimp only
  repeat' split
  all_goals exact ⟨_, rfl⟩

theorem remapFold_scalar_ok (s : Scalar) (wf : Workflow) (rcs : List RemapConfig) :
    ∃ w', remapFold (.scalar s) wf rcs = .ok w' := by
  induction rcs generalizing wf with
  | nil => exact ⟨wf, rfl⟩
  | cons rc rest ih =>
    obtain ⟨w', hw⟩ := applyRemap_scalar_ok s wf rc
    obtain ⟨w'', hw'⟩ := ih w'
    refine ⟨w'', ?_⟩
    rw [remapFold]
    simp only [hw]
    exact hw'

theorem processParam_ok (ps : List (String × ParamConfig)) (wf : Workflow)
    (p : String) (v : JVal)
    (h : alookup ps p = none ∨ ∃ s, v = JVal.scalar s) :
    ∃ w', processParam ps wf p v = .ok w' := by
  rcases h with h | ⟨s, rfl⟩
  · exact ⟨wf, by rw [processParam, h]⟩
  · unfold processParam
    dsimp only
    repeat' split
    all_goals first
      | exact ⟨_, rfl⟩
      | exact remapFold_scalar_ok _ _ _

theorem passM_ok (ps : List (String × ParamConfig)) (wf : Workflow)
    (L : List (String × JVal))
    (h : ∀ p v, (p, v) ∈ L → alookup ps p = none ∨ ∃ s, v = JVal.scalar s) :
    ∃ w', passM ps wf L = .ok w' := by
  induction L generalizing wf with
  | nil => exact ⟨wf, rfl⟩
  | cons pv rest ih =>
    obtain ⟨p, v⟩ := pv
    obtain ⟨w', hw⟩ := processParam_ok ps wf p v (h p v (List.mem_cons_self _ _))
    obtain ⟨w'', hw'⟩ := ih w' (fun p v hpv => h p v (List.mem_cons_of_mem _ hpv))
    refine ⟨w'', ?_⟩
    rw [passM]
    simp only [hw]
    exact hw'

theorem mem_setKey {κ α : Type} [DecidableEq κ] (d : List (κ × α)) (k : κ) (v : α)
    (p : κ × α) (h : p ∈ setKey d k v) : p = (k, v) ∨ p ∈ d := by
  induction d with
  | nil => simp [setKey] at h; exact Or.inl h
  | cons q d ih =>
    obtain ⟨k₀, v₀⟩ := q
    by_cases hk : k = k₀
    · subst hk
      simp only [setKey, if_pos rfl] at h
      rcases List.mem_cons.mp h with rfl | h
      · exact Or.inl rfl
      · exact Or.inr (List.mem_cons_of_mem _ h)
    · simp only [setKey, if_neg hk] at h
      rcases List.mem_cons.mp h with rfl | h
      · exact Or.inr (List.mem_cons_self _ _)
      · rcases ih h with h | h
        · exact Or.inl h
        · exact Or.inr (List.mem_cons_of_mem _ h)

/-! ### Claim theorems -/

/-- C1 (counterexample): on the literal Scenario A inputs — graph with node
"6", mapping routing "prompt" to node 6 subfield "text", argument set
holding only "prompt" — the injection engine does not succeed with the
claimed output graph: the unconditional subscript of the asset-list key
"images" raises a KeyError before any mapping is applied. -/
theorem C1_scenarioA_counterexample :
    inject_args_into_workflow wfA argsA psA [] http200 =
      .error (.keyError "images") := rfl

/-- C1 (amended): Scenario A holds once the argument set also carries the
asset-list key "images" (here the empty list): the engine succeeds and
returns the graph where node "6" gains inputs.text = "a cat" — the integer
node id 6 coerced to the string key "6" and the field group defaulting to
"inputs" — with the original graph binding unchanged and the empty asset
list resolved to itself. -/
theorem C1_scenarioA_amended :
    inject_args_into_workflow wfA argsA' psA [] http200 =
      .ok ⟨wfA, [("6", [("inputs", [("text", jstr "a cat")])])], argsA', []⟩ := rfl

/-- C2 (counterexample): it is not the case that every argument-set shape
short of structural parse failure is tolerated: the empty argument set —
which lacks the asset-list key "images" — makes the injection function
raise a KeyError rather than degrade to a warning. -/
theorem C2_counterexample :
    inject_args_into_workflow [("1", [])] [] [] [] http200 =
      .error (.keyError "images") := rfl

/-- C2 (amended): per-parameter problems (unknown parameter name, missing
node_id or subfield, absent target node) degrade to warnings, and download
failures are the only fetch-related aborts; but the argument set must carry
the key "images".  Whenever "images" maps to a list of URL strings whose
targets are present or fetchable, "images" itself is not a mapped parameter,
and every other argument value is a scalar, the call returns normally. -/
theorem C2_amended_no_abort (g : Workflow) (args : Args)
    (ps : List (String × ParamConfig)) (fs : List String) (http : String → Nat)
    (urls : List Scalar)
    (himg : alookup args "images" = some (.arr urls))
    (hstr : ∀ u ∈ urls, ∃ s, u = Scalar.str s)
    (hdl : ∀ url, Scalar.str url ∈ urls →
      ("/root/input/" ++ url_to_filename url) ∈ fs ∨ http url = 200)
    (hps : alookup ps "images" = none)
    (hscalar : ∀ p v, (p, v) ∈ args → p ≠ "images" → ∃ s, v = JVal.scalar s) :
    ∃ r, inject_args_into_workflow g args ps fs http = .ok r := by
  obtain ⟨paths, fs', hres⟩ := resolveImages_ok http urls fs hstr hdl
  have hpairs : ∀ p v, (p, v) ∈ setKey args "images" (.arr (paths.map Scalar.str)) →
      alookup ps p = none ∨ ∃ s, v = JVal.scalar s := by
    intro p v hpv
    rcases mem_setKey _ _ _ _ hpv with h | h
    · rcases h with ⟨rfl, rfl⟩
      exact Or.inl hps
    · by_cases hp : p = "images"
      · subst hp; exact Or.inl hps
      · exact Or.inr (hscalar p v h hp)
  obtain ⟨u, hu⟩ := passM_ok ps (deepcopy g) (setKey args "images" (.arr (paths.map Scalar.str))) hpairs
  refine ⟨⟨g, u, setKey args "images" (.arr (paths.map Scalar.str)), fs'⟩, ?_⟩
  rw [inject_args_into_workflow, imageStep, himg]
  simp only [hres, hu]

/-- C2 (witness for the amended theorem at a concrete input). -/
theorem C2_amended_no_abort_witness :
    ∃ r, inject_args_into_workflow wfA argsA' psA [] http200 = .ok r :=
  C2_amended_no_abort wfA argsA' psA [] http200 [] rfl
    (by intro u hu; cases hu)
    (by intro url hu; cases hu)
    rfl
    (by
      intro p v hpv hne
      rcases List.mem_cons.mp hpv with h | h
      · cases h; exact ⟨_, rfl⟩
      · rcases List.mem_cons.mp h with h | h
        · cases h; exact absurd rfl hne
        · cases h)

/-- C4: after a successful call the graph document of the caller is unchanged in
every node, field group and field: the pass mutates a deep copy only, and
the original flows through the call untouched. -/
theorem C4_non_mutation (g : Workflow) (a : Args) (ps : List (String × ParamConfig))
    (fs : List String) (http : String → Nat) (r : InjectResult)
    (h : inject_args_into_workflow g a ps fs http = .ok r) :
    r.original = g := by
  unfold inject_args_into_workflow at h
  split at h
  · cases h
  · dsimp only at h
    split at h
    · cases h
    · simp only [Except.ok.injEq] at h
      subst h
      rfl

/-- C4 (witness at a concrete input). -/
theorem C4_non_mutation_witness :
    InjectResult.original ⟨wfA, [("6", [("inputs", [("text", jstr "a cat")])])], argsA', []⟩ = wfA :=
  C4_non_mutation wfA argsA' psA [] http200 _ rfl

/-- C6: the mapping-specification path consulted while serving a request is
the same hard-coded txt2img api.yaml whatever workflow the request names —
even though the graph document path does vary with the workflow name — so
injection for a different workflow does not use a per-workflow
specification. -/
theorem C6_spec_path_constant :
    mapping_spec_path "img2img" = api_yaml_path ∧
    mapping_spec_path "img2img" = mapping_spec_path "txt2img" ∧
    workflow_graph_path "img2img" ≠ workflow_graph_path "txt2img" := by
  refine ⟨rfl, rfl, ?_⟩
  decide

/-- C7: if a file already exists at the target path and overwrite is not
set, the resolver returns that path at once with the filesystem untouched
(no fetch); and after any successful call, a repeated call for the same
target path — whatever URL or HTTP behaviour — finds the file present and
performs no further download. -/
theorem C7_no_refetch (url url2 p : String) (fs : List String) (http http2 : String → Nat) :
    (p ∈ fs → download_file url p false fs http = .ok (.cached p, fs)) ∧
    (∀ r fs', download_file url p false fs http = .ok (r, fs') →
      download_file url2 p false fs' http2 = .ok (.cached p, fs')) := by
  constructor
  · exact fun h => download_file_cached url p fs http h
  · intro r fs' h
    exact download_file_cached url2 p fs' http2 (download_file_ok_mem _ _ _ _ _ _ h).2.1

/-- C7 (witness at a concrete input: a first fetch, then a cached hit). -/
theorem C7_no_refetch_witness :
    download_file "u2" "p" false ["p"] http200 = .ok (.cached "p", ["p"]) :=
  (C7_no_refetch "u" "u2" "p" [] http200 http200).2 (.fetched "p") ["p"] rfl

/-- C8 (counterexample): the fetch path does not return normally on every
success status: a final status of 201 — a success-class code — raises the
generic fetch failure, refuting "returns normally if and only if the final
response status is a success". -/
theorem C8_counterexample :
    download_file "u" "p" false [] http201 = .error (.fetchError "u" 201) ∧
    http_success 201 = true := ⟨rfl, rfl⟩

/-- C8 (amended): when the resolver must fetch (no usable existing file),
it raises the missing-resource failure exactly on status 404, raises the
generic fetch failure on every other status different from 200, and returns
the written local path on 200; it returns normally if and only if the final
status is exactly 200. -/
theorem C8_fetch_statuses (url p : String) (overwrite : Bool) (fs : List String)
    (http : String → Nat) (hfetch : ¬ (p ∈ fs ∧ overwrite = false)) :
    (http url = 404 → download_file url p overwrite fs http = .error (.notFound url)) ∧
    (http url ≠ 404 → http url ≠ 200 →
      download_file url p overwrite fs http = .error (.fetchError url (http url))) ∧
    (http url = 200 → download_file url p overwrite fs http = .ok (.fetched p, p :: fs)) ∧
    ((∃ r, download_file url p overwrite fs http = .ok r) ↔ http url = 200) := by
  refine ⟨?_, ?_, ?_, ?_⟩
  · intro h404
    simp [download_file, hfetch, h404]
  · intro h404 h200
    simp [download_file, hfetch, h404, h200]
  · intro h200
    simp [download_file, hfetch, h200]
  · constructor
    · rintro ⟨r, hr⟩
      by_contra h200
      by_cases h404 : http url = 404
      · simp [download_file, hfetch, h404] at hr
      · simp [download_file, hfetch, h404, h200] at hr
    · intro h200
      exact ⟨(.fetched p, p :: fs), by simp [download_file, hfetch, h200]⟩

/-- C8 (witness for the amended theorem at a concrete input). -/
theorem C8_fetch_statuses_witness :
    download_file "u" "p" false [] http200 = .ok (.fetched "p", ["p"]) :=
  (C8_fetch_statuses "u" "p" false [] http200 (by simp)).2.2.1 rfl

/-- C9 (counterexample): the derived filename does not always equal the
final segment of the URL path component with the query stripped — a query
string containing a slash shifts the split — and the 255-character bound
can be exceeded when the extension itself is longer than the bound. -/
theorem C9_counterexample :
    url_to_filename "https://h/a.png?x=b/c" = "c" ∧
    spec_target_filename "https://h/a.png?x=b/c" = "a.png" ∧
    url_to_filename "https://h/a.png?x=b/c" ≠
      spec_target_filename "https://h/a.png?x=b/c" ∧
    (url_to_filename longUrl).length = 256 := by
  refine ⟨rfl, rfl, by decide, ?_⟩
  rfl

/-- C10: the argument set of the caller — unlike the graph document — is not
copied: the call rebinds its "images" entry in place to the list of resolved
local file paths, in the original URL order, and leaves every other entry
unchanged.  The post-call binding is the `args` component of the result. -/
theorem C10_args_mutated (g : Workflow) (args : Args) (ps : List (String × ParamConfig))
    (fs : List String) (http : String → Nat) (urls : List Scalar) (r : InjectResult)
    (himg : alookup args "images" = some (.arr urls))
    (h : inject_args_into_workflow g args ps fs http = .ok r) :
    ∃ paths : List String,
      r.args = setKey args "images" (.arr (paths.map Scalar.str)) ∧
      (∀ k, k ≠ "images" → alookup r.args k = alookup args k) ∧
      paths.length = urls.length ∧
      (∀ i url, urls.get? i = some (.str url) →
        paths.get? i = some ("/root/input/" ++ url_to_filename url)) := by
  unfold inject_args_into_workflow at h
  rw [imageStep, himg] at h
  rcases hres : resolveImages http urls fs with e | ⟨paths, fs'⟩
  · simp only [hres] at h
    cases h
  · simp only [hres] at h
    rcases hu : passM ps (deepcopy g) (setKey args "images" (.arr (paths.map Scalar.str)))
      with e | u
    · simp only [hu] at h
      cases h
    · simp only [hu, Except.ok.injEq] at h
      subst h
      obtain ⟨hlen, _, _, hget⟩ := resolveImages_paths http urls fs fs' paths hres
      refine ⟨paths, rfl, ?_, hlen, hget⟩
      intro k hk
      exact alookup_setKey_ne _ _ _ _ hk

/-- C10 (witness at a concrete input: two URLs resolved in order). -/
theorem C10_args_mutated_witness :
    ∃ paths : List String,
      InjectResult.args ⟨wfA, [("6", [("inputs", [("text", jstr "x")])])],
          [("images", .arr [.str "/root/input/a.png", .str "/root/input/b.png"]),
           ("prompt", jstr "x")],
          ["/root/input/b.png", "/root/input/a.png"]⟩ =
        setKey argsC "images" (.arr (paths.map Scalar.str)) ∧
      (∀ k, k ≠ "images" →
        alookup (InjectResult.args ⟨wfA, [("6", [("inputs", [("text", jstr "x")])])],
          [("images", .arr [.str "/root/input/a.png", .str "/root/input/b.png"]),
           ("prompt", jstr "x")],
          ["/root/input/b.png", "/root/input/a.png"]⟩) k = alookup argsC k) ∧
      paths.length = [Scalar.str "http://h/a.png", Scalar.str "http://h/b.png"].length ∧
      (∀ i url, [Scalar.str "http://h/a.png", Scalar.str "http://h/b.png"].get? i
          = some (.str url) →
        paths.get? i = some ("/root/input/" ++ url_to_filename url)) :=
  C10_args_mutated wfA argsC psA [] http200
    [.str "http://h/a.png", .str "http://h/b.png"] _ rfl rfl

/-! ### Lemmas about field writes -/

theorem writeField_none (wf : Workflow) (n f s : String) (v : JVal)
    (h : alookup wf n = none) : writeField wf n f s v = wf := by
  rw [writeField, h]

theorem writeField_some (wf : Workflow) (n f s : String) (v : JVal) (node : Node)
    (h : alookup wf n = some node) :
    writeField wf n f s v =
      setKey wf n (setKey node f (setKey ((alookup node f).getD []) s v)) := by
  rw [writeField, h]
  dsimp only
  rcases hf : alookup node f with _ | fg
  · simp only [hf, Option.isSome_none, Bool.false_eq_true, if_false,
      alookup_setKey_self, Option.getD_some, setKey_setKey, Option.getD_none]
  · simp only [hf, Option.isSome_some, if_true, Option.getD_some]

theorem getPath_writeField_self (wf : Workflow) (n f s : String) (v : JVal)
    (h : (alookup wf n).isSome) :
    getPath (writeField wf n f s v) n f s = some v := by
  obtain ⟨node, hn⟩ := Option.isSome_iff_exists.mp h
  rw [writeField_some wf n f s v node hn, getPath]
  simp only [alookup_setKey_self]

/-- C3: for a parameter rule that resolves (rule found, comfyui section
present, node id and subfield given, target node in the graph), the pass is
exactly the primary field write followed by the remap loop — so the primary
write happens independently of any remap; and for a well-formed remap rule
(truthy node id and subfield), the remap fires if and only if the raw
argument value is a key of its lookup table: a value outside the table
leaves the workflow completely untouched by that rule, and a value in the
table writes the mapped value into the node, field group
and field of the remap rule itself (creating the field group if absent), provided its node exists. -/
theorem C3_remap_gating
    (ps : List (String × ParamConfig)) (p : String) (pc : ParamConfig) (c : ComfyConfig)
    (nid : Scalar) (sub : String) (wf : Workflow) (pv : JVal) (s : Scalar)
    (rc : RemapConfig) (rsub : String)
    (hps : alookup ps p = some pc) (hc : pc.comfyui = some c)
    (hnid : c.node_id = some nid) (hsub : c.subfield = some sub)
    (hmem : (alookup wf (scalarStr nid)).isSome)
    (hpv : pv = .scalar s)
    (hrc : rc ∈ c.remap)
    (hrs : rc.subfield = some rsub) (hrs2 : rsub ≠ "") (hrn : pyStr rc.node_id ≠ "") :
    processParam ps wf p pv =
      remapFold pv (writeField wf (scalarStr nid) (c.field.getD "inputs") sub pv) c.remap
    ∧ (alookup rc.map s = none → ∀ w, applyRemap pv w rc = .ok w)
    ∧ (∀ mv, alookup rc.map s = some mv → ∀ w, (alookup w (pyStr rc.node_id)).isSome →
        applyRemap pv w rc =
          .ok (writeField w (pyStr rc.node_id) (rc.field.getD "inputs") rsub mv) ∧
        getPath (writeField w (pyStr rc.node_id) (rc.field.getD "inputs") rsub mv)
          (pyStr rc.node_id) (rc.field.getD "inputs") rsub = some mv) := by
  refine ⟨?_, ?_, ?_⟩
  · obtain ⟨node, hn⟩ := Option.isSome_iff_exists.mp hmem
    rw [processParam]
    simp only [hps, hc, hnid, hsub, hn, ite_self]
  · intro hmap w
    subst hpv
    rw [applyRemap]
    simp only [if_neg hrn, hrs, if_neg hrs2, hmap]
  · intro mv hmv w hw
    obtain ⟨nodeW, hnW⟩ := Option.isSome_iff_exists.mp hw
    constructor
    · rw [applyRemap]
      subst hpv
      simp only [if_neg hrn, hrs, if_neg hrs2, hmv, hnW]
    · exact getPath_writeField_self w _ _ _ mv hw

/-- C3 (witness on the Scenario B data: the "anime" value fires the remap
into node "9", the "realistic" value leaves the graph untouched by it, and
the pass is the primary write followed by the remap loop). -/
theorem C3_remap_gating_witness :
    processParam psB wfB "style" (jstr "anime") =
      remapFold (jstr "anime") (writeField wfB "4" "inputs" "style_name" (jstr "anime")) cB.remap ∧
    applyRemap (jstr "realistic") wfB rcB = .ok wfB ∧
    applyRemap (jstr "anime") wfB rcB =
      .ok (writeField wfB "9" "inputs" "ckpt_name" (jstr "anime.safetensors")) ∧
    getPath (writeField wfB "9" "inputs" "ckpt_name" (jstr "anime.safetensors"))
      "9" "inputs" "ckpt_name" = some (jstr "anime.safetensors") := by
  have hanime := C3_remap_gating psB "style" ⟨some cB⟩ cB (.num 4) "style_name" wfB
    (jstr "anime") (.str "anime") rcB "ckpt_name" rfl rfl rfl rfl (by decide) rfl
    (List.mem_cons_self _ _) rfl (by decide) (by decide)
  have hreal := C3_remap_gating psB "style" ⟨some cB⟩ cB (.num 4) "style_name" wfB
    (jstr "realistic") (.str "realistic") rcB "ckpt_name" rfl rfl rfl rfl (by decide) rfl
    (List.mem_cons_self _ _) rfl (by decide) (by decide)
  refine ⟨hanime.1, hreal.2.1 rfl wfB, ?_, ?_⟩
  · exact ((hanime.2.2 (jstr "anime.safetensors") rfl wfB (by decide)).1)
  · exact ((hanime.2.2 (jstr "anime.safetensors") rfl wfB (by decide)).2)

theorem splitextL_append (p : List Char) : (splitextL p).1 ++ (splitextL p).2 = p := by
  rw [splitextL]
  cases h : lastIdxOf p '.' with
  | none => simp
  | some di =>
    dsimp only
    split
    · split
      · exact List.take_append_drop _ _
      · simp
    · simp

/-- C9 (amended): the derived filename is the final slash-separated segment
of the URL with everything from the first question mark stripped (returned
unchanged whenever it is within the 255-character bound); the result always
ends with the splitext extension of that segment; and its length respects
the 255-character bound whenever the extension itself is within the bound. -/
theorem C9_amended_filename (url : String) :
    (∃ pre : List Char, urlToFilenameL url.toList = pre ++ (splitextL (rawSegment url)).2) ∧
    ((splitextL (rawSegment url)).2.length ≤ 255 → (url_to_filename url).length ≤ 255) ∧
    ((rawSegment url).length ≤ 255 → url_to_filename url = ⟨rawSegment url⟩) := by
  have hurl : urlToFilenameL url.toList =
      if 255 < (rawSegment url).length then
        pySliceL (splitextL (rawSegment url)).1
            ((255 : Int) - ((splitextL (rawSegment url)).2.length : Int)) ++
          (splitextL (rawSegment url)).2
      else rawSegment url := rfl
  have hlen : (url_to_filename url).length = (urlToFilenameL url.toList).length := rfl
  by_cases h : 255 < (rawSegment url).length
  · refine ⟨⟨_, by rw [hurl, if_pos h]⟩, ?_, fun hraw => absurd h (by omega)⟩
    intro hext
    rw [hlen, hurl, if_pos h, List.length_append]
    have h0 : (0 : Int) ≤ 255 - ((splitextL (rawSegment url)).2.length : Int) := by omega
    have h1 : (pySliceL (splitextL (rawSegment url)).1
        ((255 : Int) - ((splitextL (rawSegment url)).2.length : Int))).length ≤
        255 - (splitextL (rawSegment url)).2.length := by
      rw [pySliceL, if_pos h0, List.length_take]
      omega
    omega
  · refine ⟨⟨(splitextL (rawSegment url)).1, ?_⟩, ?_, ?_⟩
    · rw [hurl, if_neg h, splitextL_append]
    · intro _
      rw [hlen, hurl, if_neg h]
      omega
    · intro _
      show String.mk (urlToFilenameL url.toList) = String.mk (rawSegment url)
      rw [hurl, if_neg h]

theorem writeField_keys (wf : Workflow) (n f s : String) (v : JVal) :
    (writeField wf n f s v).map Prod.fst = wf.map Prod.fst := by
  rcases h : alookup wf n with _ | node
  · rw [writeField_none _ _ _ _ _ h]
  · rw [writeField_some _ _ _ _ _ _ h]
    exact keys_setKey _ _ _ (by simp [h])

theorem writeField_absorb (wf : Workflow) (n f s : String) (v : JVal)
    (h : getPath wf n f s = some v) : writeField wf n f s v = wf := by
  rw [getPath] at h
  rcases hn : alookup wf n with _ | node
  · exact writeField_none _ _ _ _ _ hn
  · simp only [hn] at h
    rcases hf : alookup node f with _ | fg
    · simp only [hf] at h
      exact Option.noConfusion h
    · simp only [hf] at h
      rw [writeField_some _ _ _ _ _ _ hn, hf]
      simp only [Option.getD_some]
      rw [setKey_id _ _ _ h, setKey_id _ _ _ hf, setKey_id _ _ _ hn]

theorem writeField_collapse (wf : Workflow) (n f s : String) (v v' : JVal) :
    writeField (writeField wf n f s v) n f s v' = writeField wf n f s v' := by
  rcases hn : alookup wf n with _ | node
  · rw [writeField_none _ _ _ _ _ hn, writeField_none _ _ _ _ _ hn]
  · rw [writeField_some _ _ _ _ _ _ hn]
    have hn2 := alookup_setKey_self wf n (setKey node f (setKey ((alookup node f).getD []) s v))
    rw [writeField_some _ _ _ _ _ _ hn2, writeField_some _ _ _ _ _ _ hn]
    rw [alookup_setKey_self]
    simp only [Option.getD_some]
    rw [setKey_setKey, setKey_setKey, setKey_setKey]

theorem writeField_some_nw (wf : Workflow) (n f s : String) (v : JVal) (node : Node)
    (h : alookup wf n = some node) :
    writeField wf n f s v = setKey wf n (nodeWrite node f s v) :=
  writeField_some wf n f s v node h

theorem writeField_setKey_self (wf : Workflow) (n : String) (A : Node) (f s : String) (v : JVal) :
    writeField (setKey wf n A) n f s v = setKey wf n (nodeWrite A f s v) := by
  rw [writeField_some_nw _ _ _ _ _ _ (alookup_setKey_self wf n A), setKey_setKey]

theorem getPath_writeField_frame (wf : Workflow) (n f s : String) (v : JVal)
    (n' f' s' : String) (hne : ¬ (n' = n ∧ f' = f ∧ s' = s)) :
    getPath (writeField wf n f s v) n' f' s' = getPath wf n' f' s' := by
  rcases hn : alookup wf n with _ | node
  · rw [writeField_none _ _ _ _ _ hn]
  · rw [writeField_some _ _ _ _ _ _ hn]
    by_cases h1 : n' = n
    · subst h1
      rw [getPath, getPath, alookup_setKey_self, hn]
      dsimp only
      by_cases h2 : f' = f
      · subst h2
        have h3 : ¬ s' = s := fun hs => hne ⟨rfl, rfl, hs⟩
        rw [alookup_setKey_self]
        dsimp only
        rw [alookup_setKey_ne _ _ _ _ h3]
        rcases hf : alookup node f' with _ | fg
        · simp [hf]
        · simp [hf]
      · rw [alookup_setKey_ne _ _ _ _ h2]
    · rw [getPath, getPath, alookup_setKey_ne _ _ _ _ h1]

theorem getPath_isSome_writeField (wf : Workflow) (n f s : String) (v : JVal)
    (n' f' s' : String) (h : (getPath wf n' f' s').isSome) :
    (getPath (writeField wf n f s v) n' f' s').isSome := by
  by_cases he : n' = n ∧ f' = f ∧ s' = s
  · obtain ⟨rfl, rfl, rfl⟩ := he
    rcases hn : alookup wf n' with _ | node
    · rw [writeField_none _ _ _ _ _ hn]; exact h
    · rw [getPath_writeField_self _ _ _ _ _ (by simp [hn])]; simp
  · rw [getPath_writeField_frame _ _ _ _ _ _ _ _ he]; exact h

theorem nodeWrite_comm (node : Node) (f s : String) (v : JVal) (f' s' : String) (v' : JVal)
    (fg : FieldGroup) (hf : alookup node f = some fg) (hs : (alookup fg s).isSome)
    (hne : ¬ (f' = f ∧ s' = s)) :
    nodeWrite (nodeWrite node f s v) f' s' v' = nodeWrite (nodeWrite node f' s' v') f s v := by
  by_cases hff : f' = f
  · subst hff
    have h3 : ¬ s' = s := fun h => hne ⟨rfl, h⟩
    rw [nodeWrite, nodeWrite, nodeWrite, nodeWrite, hf]
    simp only [Option.getD_some, alookup_setKey_self, setKey_setKey]
    rw [setKey_comm fg s s' v v' (fun h => h3 h.symm) hs]
  · rw [nodeWrite, nodeWrite, nodeWrite, nodeWrite]
    rw [alookup_setKey_ne _ _ _ _ hff, alookup_setKey_ne _ _ _ _ (fun h => hff h.symm)]
    rw [setKey_comm node f f' _ _ (fun h => hff h.symm) (by simp [hf])]

theorem writeField_comm (wf : Workflow) (n f s : String) (v : JVal)
    (n' f' s' : String) (v' : JVal)
    (hx : (getPath wf n f s).isSome) (hne : ¬ (n' = n ∧ f' = f ∧ s' = s)) :
    writeField (writeField wf n f s v) n' f' s' v' =
      writeField (writeField wf n' f' s' v') n f s v := by
  rw [getPath] at hx
  rcases hn : alookup wf n with _ | node
  · simp [hn] at hx
  · simp only [hn] at hx
    rcases hf : alookup node f with _ | fg
    · simp [hf] at hx
    · simp only [hf] at hx
      by_cases hnn : n' = n
      · subst hnn
        have hne2 : ¬ (f' = f ∧ s' = s) := fun h => hne ⟨rfl, h.1, h.2⟩
        rw [writeField_some_nw _ _ _ _ v _ hn, writeField_setKey_self]
        rw [writeField_some_nw _ _ _ _ v' _ hn, writeField_setKey_self]
        rw [nodeWrite_comm node f s v f' s' v' fg hf hx hne2]
      · rcases hn' : alookup wf n' with _ | node'
        · rw [writeField_some_nw _ _ _ _ _ _ hn]
          rw [writeField_none _ _ _ _ v' (by rw [alookup_setKey_ne _ _ _ _ hnn]; exact hn')]
          rw [writeField_none _ _ _ _ v' hn']
          rw [writeField_some_nw _ _ _ _ _ _ hn]
        · rw [writeField_some_nw _ _ _ _ v _ hn]
          rw [writeField_some_nw (setKey wf n (nodeWrite node f s v)) n' f' s' v' node'
            (by rw [alookup_setKey_ne _ _ _ _ hnn]; exact hn')]
          rw [writeField_some_nw _ _ _ _ v' _ hn']
          rw [writeField_some_nw (setKey wf n' (nodeWrite node' f' s' v')) n f s v node
            (by rw [alookup_setKey_ne _ _ _ _ (fun h => hnn h.symm)]; exact hn)]
          rw [setKey_comm wf n n' _ _ (fun h => hnn h.symm) (by simp [hn])]

/-! ### Lemmas about write lists -/

theorem applyW_keys (wf : Workflow) (w : Write) : keysL (applyW wf w) = keysL wf :=
  writeField_keys wf w.n w.f w.s w.v

theorem applyWrites_keys (L : List Write) (wf : Workflow) :
    keysL (applyWrites wf L) = keysL wf := by
  induction L generalizing wf with
  | nil => rfl
  | cons w L ih => rw [applyWrites, ih, applyW_keys]

theorem applyWrites_append (wf : Workflow) (L1 L2 : List Write) :
    applyWrites wf (L1 ++ L2) = applyWrites (applyWrites wf L1) L2 := by
  induction L1 generalizing wf with
  | nil => rfl
  | cons w L ih => rw [List.cons_append, applyWrites, applyWrites, ih]

theorem getPath_isSome_applyWrites (L : List Write) (wf : Workflow) (n f s : String)
    (h : (getPath wf n f s).isSome) :
    (getPath (applyWrites wf L) n f s).isSome := by
  induction L generalizing wf with
  | nil => exact h
  | cons w L ih => exact ih _ (getPath_isSome_writeField _ _ _ _ _ _ _ _ h)

theorem getPath_applyWrites_frame (L : List Write) (wf : Workflow) (n f s : String)
    (h : ∀ y ∈ L, ¬ (n = y.n ∧ f = y.f ∧ s = y.s)) :
    getPath (applyWrites wf L) n f s = getPath wf n f s := by
  induction L generalizing wf with
  | nil => rfl
  | cons w L ih =>
    rw [applyWrites, ih _ (fun y hy => h y (List.mem_cons_of_mem _ hy))]
    exact getPath_writeField_frame _ _ _ _ _ _ _ _ (h w (List.mem_cons_self _ _))

theorem applyWrites_star (M : List Write) (B : Workflow) (x : Write)
    (hyp : alookup B x.n = none ∨
      ((getPath B x.n x.f x.s).isSome ∧
        (getPath B x.n x.f x.s = some x.v ∨ ∃ y ∈ M, y.n = x.n ∧ y.f = x.f ∧ y.s = x.s))) :
    applyWrites (applyW B x) M = applyWrites B M := by
  induction M generalizing B with
  | nil =>
    rcases hyp with h | ⟨hs, h | h⟩
    · show applyW B x = B
      exact writeField_none _ _ _ _ _ h
    · show applyW B x = B
      exact writeField_absorb _ _ _ _ _ h
    · obtain ⟨y, hy, _⟩ := h
      cases hy
  | cons y M ih =>
    rcases hyp with h | ⟨hs, h | h⟩
    · show applyWrites (applyW (applyW B x) y) M = applyWrites (applyW B y) M
      rw [show applyW B x = B from writeField_none _ _ _ _ _ h]
    · show applyWrites (applyW (applyW B x) y) M = applyWrites (applyW B y) M
      rw [show applyW B x = B from writeField_absorb _ _ _ _ _ h]
    · by_cases hsame : y.n = x.n ∧ y.f = x.f ∧ y.s = x.s
      · obtain ⟨h1, h2, h3⟩ := hsame
        show applyWrites (applyW (applyW B x) y) M = applyWrites (applyW B y) M
        rw [applyW, applyW, applyW, h1, h2, h3, writeField_collapse]
      · have hmem : ∃ y' ∈ M, y'.n = x.n ∧ y'.f = x.f ∧ y'.s = x.s := by
          obtain ⟨y', hy', he⟩ := h
          rcases List.mem_cons.mp hy' with rfl | hy'
          · exact absurd he hsame
          · exact ⟨y', hy', he⟩
        show applyWrites (applyW (applyW B x) y) M = applyWrites (applyW B y) M
        have hcomm : applyW (applyW B x) y = applyW (applyW B y) x := by
          rw [applyW, applyW, applyW, applyW]
          exact writeField_comm B x.n x.f x.s x.v y.n y.f y.s y.v hs hsame
        rw [hcomm]
        exact ih (applyW B y)
          (Or.inr ⟨getPath_isSome_writeField _ _ _ _ _ _ _ _ hs, Or.inr hmem⟩)

theorem applyWrites_twice_aux (M L1 : List Write) (w : Workflow) :
    applyWrites (applyWrites w (L1 ++ M)) M = applyWrites w (L1 ++ M) := by
  induction M generalizing L1 with
  | nil => rfl
  | cons x M ih =>
    have hML : L1 ++ x :: M = (L1 ++ [x]) ++ M := by simp
    have hB : applyWrites w (L1 ++ x :: M) =
        applyWrites (applyW (applyWrites w L1) x) M := by
      rw [hML, applyWrites_append, applyWrites_append]
      rfl
    have hIH := ih (L1 ++ [x])
    rw [← hML] at hIH
    show applyWrites (applyWrites w (L1 ++ x :: M)) (x :: M) = applyWrites w (L1 ++ x :: M)
    rw [applyWrites]
    rw [applyWrites_star M _ x ?hyp]
    · exact hIH
    case hyp =>
      rcases hn : alookup (applyWrites w (L1 ++ x :: M)) x.n with _ | node
      · exact Or.inl rfl
      · have hkeys : keysL (applyW (applyWrites w L1) x) =
            keysL (applyWrites w (L1 ++ x :: M)) := by
          rw [hB, applyWrites_keys]
        have hu : (alookup (applyW (applyWrites w L1) x) x.n).isSome := by
          refine alookup_isSome_of_keys_eq x.n hkeys.symm ?_
          rw [hn]; rfl
        have hu2 : (alookup (applyWrites w L1) x.n).isSome :=
          alookup_isSome_of_keys_eq x.n (applyW_keys _ _) hu
        have hget : getPath (applyW (applyWrites w L1) x) x.n x.f x.s = some x.v :=
          getPath_writeField_self _ _ _ _ _ hu2
        have hsome : (getPath (applyWrites w (L1 ++ x :: M)) x.n x.f x.s).isSome := by
          rw [hB]
          exact getPath_isSome_applyWrites M _ _ _ _ (by rw [hget]; rfl)
        by_cases hM : ∃ y ∈ M, y.n = x.n ∧ y.f = x.f ∧ y.s = x.s
        · exact Or.inr ⟨hsome, Or.inr hM⟩
        · refine Or.inr ⟨hsome, Or.inl ?_⟩
          push_neg at hM
          rw [hB, getPath_applyWrites_frame M _ _ _ _ ?frame]
          · exact hget
          case frame =>
            intro y hy hc
            exact hM y hy hc.1.symm hc.2.1.symm hc.2.2.symm

theorem applyWrites_twice (L : List Write) (w : Workflow) :
    applyWrites (applyWrites w L) L = applyWrites w L :=
  applyWrites_twice_aux L [] w

/-! ### The pass as a compiled write list -/

theorem alookup_none_iff_keysL (wf : Workflow) (k : String) :
    alookup wf k = none ↔ k ∉ keysL wf := alookup_eq_none_iff wf k

theorem applyRemap_factor (pv : JVal) (wf : Workflow) (rc : RemapConfig) :
    applyRemap pv wf rc = Except.map (applyWrites wf) (compileRemap (keysL wf) pv rc) := by
  rw [applyRemap, compileRemap]
  try dsimp only
  by_cases h1 : pyStr rc.node_id = ""
  · rw [if_pos h1, if_pos h1]; rfl
  · rw [if_neg h1, if_neg h1]
    rcases h2 : rc.subfield with _ | rsub
    · rfl
    · try dsimp only
      by_cases h3 : rsub = ""
      · rw [if_pos h3, if_pos h3]; rfl
      · rw [if_neg h3, if_neg h3]
        rcases pv with s | xs
        · try dsimp only
          rcases h4 : alookup rc.map s with _ | mv
          · rfl
          · try dsimp only
            rcases h5 : alookup wf (pyStr rc.node_id) with _ | node
            · rw [if_neg ((alookup_none_iff_keysL wf _).mp h5)]
              rfl
            · rw [if_pos (show pyStr rc.node_id ∈ keysL wf by
                by_contra hk
                rw [(alookup_none_iff_keysL wf _).mpr hk] at h5
                cases h5)]
              rfl
        · rfl

theorem remapFold_factor (pv : JVal) (wf : Workflow) (rcs : List RemapConfig) :
    remapFold pv wf rcs = Except.map (applyWrites wf) (compileRemaps (keysL wf) pv rcs) := by
  induction rcs generalizing wf with
  | nil => rfl
  | cons rc rest ih =>
    rw [remapFold, compileRemaps, applyRemap_factor]
    rcases hc : compileRemap (keysL wf) pv rc with e | ws
    · rfl
    · dsimp only [Except.map]
      have hkeys : keysL (applyWrites wf ws) = keysL wf := applyWrites_keys ws wf
      rw [ih (applyWrites wf ws), hkeys]
      rcases hr : compileRemaps (keysL wf) pv rest with e | ws'
      · rfl
      · dsimp only [Except.map]
        rw [applyWrites_append]

theorem processParam_factor (ps : List (String × ParamConfig)) (wf : Workflow)
    (p : String) (v : JVal) :
    processParam ps wf p v = Except.map (applyWrites wf) (compileParam (keysL wf) ps p v) := by
  rw [processParam, compileParam]
  rcases h1 : alookup ps p with _ | pc
  · rfl
  · try dsimp only
    rcases h2 : pc.comfyui with _ | c
    · rfl
    · try dsimp only
      rcases h3 : c.node_id with _ | nid
      · rcases c.subfield with _ | sub <;> rfl
      · rcases h4 : c.subfield with _ | sub
        · rfl
        · try dsimp only
          rcases h5 : alookup wf (scalarStr nid) with _ | node
          · have hmem : ¬ scalarStr nid ∈ keysL wf := (alookup_none_iff_keysL wf _).mp h5
            rw [if_neg hmem]
            rfl
          · have hmem : scalarStr nid ∈ keysL wf := by
              by_contra hk
              rw [(alookup_none_iff_keysL wf _).mpr hk] at h5
              cases h5
            rw [if_pos hmem]
            try dsimp only
            rw [ite_self]
            rw [remapFold_factor]
            have hkeys : keysL (writeField wf (scalarStr nid) (c.field.getD "inputs") sub v) =
                keysL wf := writeField_keys _ _ _ _ _
            rw [hkeys]
            rcases hr : compileRemaps (keysL wf) v c.remap with e | ws
            · rfl
            · dsimp only [Except.map]
              rw [applyWrites]
              rfl

theorem passM_factor (ps : List (String × ParamConfig)) (wf : Workflow)
    (L : List (String × JVal)) :
    passM ps wf L = Except.map (applyWrites wf) (compileArgs (keysL wf) ps L) := by
  induction L generalizing wf with
  | nil => rfl
  | cons pv rest ih =>
    obtain ⟨p, v⟩ := pv
    rw [passM, compileArgs, processParam_factor]
    rcases hc : compileParam (keysL wf) ps p v with e | ws
    · rfl
    · dsimp only [Except.map]
      have hkeys : keysL (applyWrites wf ws) = keysL wf := applyWrites_keys ws wf
      rw [ih (applyWrites wf ws), hkeys]
      rcases hr : compileArgs (keysL wf) ps rest with e | ws'
      · rfl
      · dsimp only [Except.map]
        rw [applyWrites_append]

theorem passM_idem (ps : List (String × ParamConfig)) (wf u : Workflow)
    (L : List (String × JVal)) (h : passM ps wf L = .ok u) :
    passM ps u L = .ok u := by
  rw [passM_factor] at h ⊢
  rcases hc : compileArgs (keysL wf) ps L with e | Lw
  · rw [hc] at h
    cases h
  · rw [hc] at h
    dsimp only [Except.map] at h
    have hu : u = applyWrites wf Lw := by
      cases h
      rfl
    have hkeys : keysL u = keysL wf := by
      rw [hu]
      exact applyWrites_keys Lw wf
    rw [hkeys, hc]
    dsimp only [Except.map]
    rw [hu, applyWrites_twice]

theorem resolveImages_again (http : String → Nat) (urls : List Scalar)
    (fs fs2 : List String) (paths : List String)
    (h : resolveImages http urls fs = .ok (paths, fs2)) :
    resolveImages http urls fs2 = .ok (paths, fs2) := by
  induction urls generalizing fs paths with
  | nil =>
    rw [resolveImages] at h
    simp only [Except.ok.injEq, Prod.mk.injEq] at h
    obtain ⟨h1, h2⟩ := h
    subst h1; subst h2
    rfl
  | cons u rest ih =>
    rcases u with _ | b | n | url
    · simp [resolveImages] at h
    · simp [resolveImages] at h
    · simp [resolveImages] at h
    · rw [resolveImages] at h
      rcases hdf : download_file url ("/root/input/" ++ url_to_filename url) false fs http
        with e | ⟨r, fs₁⟩
      · simp only [hdf] at h
        cases h
      · simp only [hdf] at h
        rcases hrec : resolveImages http rest fs₁ with e | ⟨paths₁, fs₃⟩
        · simp only [hrec] at h
          cases h
        · simp only [hrec] at h
          simp only [Except.ok.injEq, Prod.mk.injEq] at h
          obtain ⟨h1, h2⟩ := h
          subst h1
          rw [h2] at hrec
          obtain ⟨hpath, hmem, _⟩ := download_file_ok_mem _ _ _ _ _ _ hdf
          obtain ⟨_, hsub, _, _⟩ := resolveImages_paths http rest fs₁ fs2 paths₁ hrec
          have hcached : download_file url ("/root/input/" ++ url_to_filename url) false fs2 http
              = .ok (.cached ("/root/input/" ++ url_to_filename url), fs2) :=
            download_file_cached _ _ _ _ (hsub hmem)
          rw [resolveImages]
          simp only [hcached, ih fs₁ paths₁ hrec]
          rw [hpath]
          rfl

theorem imageStep_again (a : Args) (fs fs2 : List String) (args2 : Args) (http : String → Nat)
    (h : imageStep a fs http = .ok (args2, fs2)) :
    imageStep a fs2 http = .ok (args2, fs2) := by
  rw [imageStep] at h ⊢
  rcases hi : alookup a "images" with _ | v
  · simp only [hi] at h
    cases h
  · rcases v with s | urls
    · simp only [hi] at h
      cases h
    · simp only [hi] at h
      dsimp only
      rcases hres : resolveImages http urls fs with e | ⟨paths, fs'⟩
      · simp only [hres] at h
        cases h
      · simp only [hres] at h
        simp only [Except.ok.injEq, Prod.mk.injEq] at h
        obtain ⟨h1, h2⟩ := h
        rw [h2] at hres
        rw [resolveImages_again http urls fs fs2 paths hres]
        dsimp only
        rw [h1]

/-- C5: the injection transform is deterministic — a fresh deep copy of the
graph yields the same call — and idempotent: re-running the injection on its
own output, with the same argument set and mapping specification and the
asset resolution held fixed, succeeds and returns that output unchanged,
because every effect of the pass is an unconditional field overwrite. -/
theorem C5_deterministic_idempotent (g : Workflow) (a : Args)
    (ps : List (String × ParamConfig)) (fs : List String) (http : String → Nat)
    (r : InjectResult) (h : inject_args_into_workflow g a ps fs http = .ok r) :
    inject_args_into_workflow (deepcopy g) a ps fs http =
      inject_args_into_workflow g a ps fs http ∧
    ∃ r2, inject_args_into_workflow r.updated a ps r.fs http = .ok r2 ∧
      r2.updated = r.updated := by
  refine ⟨rfl, ?_⟩
  unfold inject_args_into_workflow at h ⊢
  rcases hi : imageStep a fs http with e | ⟨args2, fs2⟩
  · rw [hi] at h
    cases h
  · rw [hi] at h
    dsimp only at h
    rcases hp : passM ps (deepcopy g) args2 with e | u
    · rw [hp] at h
      cases h
    · rw [hp] at h
      simp only [Except.ok.injEq] at h
      subst h
      dsimp only
      rw [imageStep_again a fs fs2 args2 http hi]
      dsimp only
      simp only [deepcopy]
      rw [passM_idem ps (deepcopy g) u args2 hp]
      exact ⟨⟨u, u, args2, fs2⟩, rfl, rfl⟩

/-- C5 (witness at a concrete input). -/
theorem C5_deterministic_idempotent_witness :
    inject_args_into_workflow (deepcopy wfB) argsB psB [] http200 =
      inject_args_into_workflow wfB argsB psB [] http200 ∧
    ∃ r2, inject_args_into_workflow
        (InjectResult.updated ⟨wfB,
          [("4", [("inputs", [("style_name", jstr "anime")])]),
           ("9", [("inputs", [("ckpt_name", jstr "anime.safetensors")])])],
          argsB, []⟩) argsB psB
        (InjectResult.fs ⟨wfB,
          [("4", [("inputs", [("style_name", jstr "anime")])]),
           ("9", [("inputs", [("ckpt_name", jstr "anime.safetensors")])])],
          argsB, []⟩) http200 = .ok r2 ∧
      r2.updated = InjectResult.updated ⟨wfB,
          [("4", [("inputs", [("style_name", jstr "anime")])]),
           ("9", [("inputs", [("ckpt_name", jstr "anime.safetensors")])])],
          argsB, []⟩ :=
  C5_deterministic_idempotent wfB argsB psB [] http200
    ⟨wfB,
      [("4", [("inputs", [("style_name", jstr "anime")])]),
       ("9", [("inputs", [("ckpt_name", jstr "anime.safetensors")])])],
      argsB, []⟩ rfl
